import Mathlib

/-!
Verification development for the bip_utils_test repository.

The depth/level state machine of `Bip44Base`
(src/bip_utils/bip/bip44_base/bip44_base.py), the mnemonic words-list
utilities (src/bip_utils/utils/mnemonic/mnemonic_utils.py) and the
Substrate SCALE unsigned-integer encoder
(src/bip_utils/substrate/scale/substrate_scale_enc_uint.py) are embedded
shallowly: Python exceptions become `Except` / `Option` results, machine
integers become `Nat` / `Int`.

The `bip32` module of the repository is not among the given source files,
so the parts of `Bip32Base` that the claims depend on (depth bookkeeping
of `ChildKey`, `DerivePath`, index hardening) are modelled from the
specification and marked as such in their doc comments.
-/

namespace BipUtils

/-- Error kinds of the embedded code: `Bip44DepthError`, Python `TypeError`
and Python `ValueError`. -/
inductive Err where
  | depthError
  | typeError
  | valueError
  deriving DecidableEq, Repr

/-- Enumerative for BIP44 changes (`Bip44Changes`, IntEnum):
`CHAIN_EXT = 0`, `CHAIN_INT = 1`. -/
inductive Bip44Changes where
  | CHAIN_EXT
  | CHAIN_INT
  deriving DecidableEq, Repr

/-- Integer value of a `Bip44Changes` enumerative (`int(change_type)`). -/
def Bip44Changes.toNat : Bip44Changes → Nat
  | .CHAIN_EXT => 0
  | .CHAIN_INT => 1

/-- Enumerative for BIP44 levels (`Bip44Levels`, IntEnum):
MASTER = 0 .. ADDRESS_INDEX = 5. -/
inductive Bip44Levels where
  | MASTER
  | PURPOSE
  | COIN
  | ACCOUNT
  | CHANGE
  | ADDRESS_INDEX
  deriving DecidableEq, Repr

/-- Integer value of a `Bip44Levels` enumerative. -/
def Bip44Levels.toNat : Bip44Levels → Nat
  | .MASTER => 0
  | .PURPOSE => 1
  | .COIN => 2
  | .ACCOUNT => 3
  | .CHANGE => 4
  | .ADDRESS_INDEX => 5

/-- Modelled from the spec: `Bip32Utils.HardenIndex` (the `bip32` module is
not among the given sources). A hardened child index has the top bit of the
32-bit index set, i.e. the index is increased by `2^31`. -/
def hardenIndex (index : Nat) : Nat :=
  index + 2 ^ 31

/-- Modelled from the spec: a child index is hardened exactly when it is
`≥ 2^31` (top bit of the 32-bit index set). -/
def isHardenedIndex (index : Nat) : Bool :=
  2 ^ 31 ≤ index

/-- Modelled from the spec: the state of a `Bip32Base` extended-key object
(the `bip32` module is not among the given sources). `keyData` and
`chainCode` are the key material bytes; `depth`, `childIndex` and
`pubOnly` mirror the extended-key fields of §3 of the spec;
`unhardenedOk` is the curve capability flag
`IsPrivateUnhardenedDerivationSupported`; `ckdFun` is the curve's
child-key-derivation capability (external per spec §4.2), mapping parent
key data, parent chain code and child index to child key data and chain
code; `indexTrace` is ghost instrumentation recording every child index
used so far, in order. -/
structure Bip32Base where
  keyData : List Nat
  chainCode : List Nat
  depth : Nat
  childIndex : Nat
  pubOnly : Bool
  unhardenedOk : Bool
  ckdFun : List Nat → List Nat → Nat → List Nat × List Nat
  pubFun : List Nat → List Nat
  indexTrace : List Nat

/-- Whether the Bip32 object is public-only (`Bip32Base.IsPublicOnly`). -/
def Bip32Base.IsPublicOnly (b : Bip32Base) : Bool :=
  b.pubOnly

/-- Curve capability flag
(`Bip32Base.IsPrivateUnhardenedDerivationSupported`). -/
def Bip32Base.IsPrivateUnhardenedDerivationSupported (b : Bip32Base) : Bool :=
  b.unhardenedOk

/-- Modelled from the spec: `Bip32Base.ChildKey`. One child-key-derivation
step: new key material and chain code come from the curve's CKD
capability, the new depth is the parent depth plus one (spec §4.2), the
child index is stored in the extended key (spec §3), and the ghost trace
records the index. -/
def Bip32Base.ChildKey (b : Bip32Base) (index : Nat) : Bip32Base :=
  let r := b.ckdFun b.keyData b.chainCode index
  { b with
    keyData := r.1
    chainCode := r.2
    depth := b.depth + 1
    childIndex := index
    indexTrace := b.indexTrace ++ [index] }

/-- Modelled from the spec: `Bip32Base.DerivePath` applies `ChildKey` for
each path element, left to right. -/
def Bip32Base.DerivePath (b : Bip32Base) (path : List Nat) : Bip32Base :=
  path.foldl (fun acc i => acc.ChildKey i) b

/-- Modelled from the spec: the `bip32_cls` selector of a coin
configuration, reduced to the only capability the claims consult: the
`IsPrivateUnhardenedDerivationSupported` flag of the curve. -/
structure Bip32Cls where
  unhardenedOk : Bool
  deriving DecidableEq, Repr

/-- Modelled from the spec: `Bip32Secp256k1`. The secp256k1 curve follows
the plain BIP32 rules, so non-hardened private derivation is supported. -/
def Bip32Secp256k1 : Bip32Cls :=
  { unhardenedOk := true }

/-- Coin configuration (`BipCoinConf`), restricted to the fields the
embedded code reads: `coin_idx`, `is_testnet`, `def_path` (as the list of
raw child indices it denotes) and the `bip32_cls` selector. -/
structure BipCoinConf where
  coin_idx : Nat
  is_testnet : Bool
  def_path : List Nat
  bip32Cls : Bip32Cls
  deriving DecidableEq, Repr

/-- Coin index of the configuration (`BipCoinConf.CoinIndex`). -/
def BipCoinConf.CoinIndex (c : BipCoinConf) : Nat :=
  c.coin_idx

/-- Default path of the configuration (`BipCoinConf.DefaultPath`). -/
def BipCoinConf.DefaultPath (c : BipCoinConf) : List Nat :=
  c.def_path

/-- Modelled from the spec: the `NOT_HARDENED_DEF_PATH` constant used by
the BIP84 configurations. It denotes the account/change/address steps
`0'/0/0`: hardened account 0, then non-hardened change 0 and address 0
(the change and address steps are not hardened because the curve supports
non-hardened private derivation). -/
def NOT_HARDENED_DEF_PATH : List Nat :=
  [hardenIndex 0, 0, 0]

/-- `Bip84Conf.BitcoinMainNet` (src/bip_utils/bip/conf/bip84/bip84_conf.py):
coin index 0, main net, default path `NOT_HARDENED_DEF_PATH`, curve
`Bip32Secp256k1`. -/
def Bip84Conf.BitcoinMainNet : BipCoinConf :=
  { coin_idx := 0
    is_testnet := false
    def_path := NOT_HARDENED_DEF_PATH
    bip32Cls := Bip32Secp256k1 }

/-- `Bip84Conf.BitcoinTestNet`: coin index 1, test net, default path
`NOT_HARDENED_DEF_PATH`, curve `Bip32Secp256k1`. -/
def Bip84Conf.BitcoinTestNet : BipCoinConf :=
  { coin_idx := 1
    is_testnet := true
    def_path := NOT_HARDENED_DEF_PATH
    bip32Cls := Bip32Secp256k1 }

/-- `Bip84Conf.LitecoinMainNet`: coin index 2, main net, default path
`NOT_HARDENED_DEF_PATH`, curve `Bip32Secp256k1`. -/
def Bip84Conf.LitecoinMainNet : BipCoinConf :=
  { coin_idx := 2
    is_testnet := false
    def_path := NOT_HARDENED_DEF_PATH
    bip32Cls := Bip32Secp256k1 }

/-- `Bip84Conf.LitecoinTestNet`: coin index 1, test net, default path
`NOT_HARDENED_DEF_PATH`, curve `Bip32Secp256k1`. -/
def Bip84Conf.LitecoinTestNet : BipCoinConf :=
  { coin_idx := 1
    is_testnet := true
    def_path := NOT_HARDENED_DEF_PATH
    bip32Cls := Bip32Secp256k1 }

/-- The four BIP84 coin configurations of
src/bip_utils/bip/conf/bip84/bip84_conf.py. -/
def bip84Confs : List BipCoinConf :=
  [Bip84Conf.BitcoinMainNet, Bip84Conf.BitcoinTestNet,
   Bip84Conf.LitecoinMainNet, Bip84Conf.LitecoinTestNet]

/-- A BIP44 public key object (`Bip44PublicKey`): the serialized public
key bytes together with the coin configuration. -/
structure Bip44PublicKey where
  pubBytes : List Nat
  coinConf : BipCoinConf

/-- A `Bip44Base` object: the wrapped Bip32 object, the coin configuration
and the memoization cell of `PublicKey` (the `lru_cache` of the Python
code, explicit here; a freshly constructed object has an empty cache). -/
structure Bip44Base where
  m_bip32 : Bip32Base
  m_coin_conf : BipCoinConf
  m_pub_cache : Option Bip44PublicKey

/-- `Bip44Base.__init__`: validates the Bip32 object's depth against its
public/private status before storing it. A public-only object must have
depth in `[ACCOUNT, ADDRESS_INDEX]`; otherwise any depth not above
`ADDRESS_INDEX` is accepted (the Python `depth < 0` test is kept although
it is vacuous over `Nat`). On failure a `Bip44DepthError` is raised. -/
def Bip44Base.ctor (bip32Obj : Bip32Base) (coinConf : BipCoinConf) :
    Except Err Bip44Base :=
  let depth := bip32Obj.depth
  if bip32Obj.IsPublicOnly then
    if depth < Bip44Levels.ACCOUNT.toNat ∨ Bip44Levels.ADDRESS_INDEX.toNat < depth then
      .error .depthError
    else
      .ok { m_bip32 := bip32Obj, m_coin_conf := coinConf, m_pub_cache := none }
  else
    if depth < 0 ∨ Bip44Levels.ADDRESS_INDEX.toNat < depth then
      .error .depthError
    else
      .ok { m_bip32 := bip32Obj, m_coin_conf := coinConf, m_pub_cache := none }

/-- Whether an `Except` result is a success. -/
def exceptOk {ε α : Type} : Except ε α → Bool
  | .ok _ => true
  | .error _ => false

/-- A value passed where a `Bip44Levels` enumerative is expected: either a
genuine enumerative or some other Python value (failing the `isinstance`
check). -/
inductive LevelArg where
  | valid : Bip44Levels → LevelArg
  | invalid
  deriving DecidableEq, Repr

/-- A value passed where a `Bip44Changes` enumerative is expected: either a
genuine enumerative or some other Python value (failing the `isinstance`
check). -/
inductive ChangeArg where
  | valid : Bip44Changes → ChangeArg
  | invalid
  deriving DecidableEq, Repr

/-- The depth comparison performed by `Bip44Base.IsLevel` once the
`isinstance` check has passed: `self.m_bip32.Depth() == level`. -/
def Bip44Base.isLevelChk (b : Bip44Base) (level : Bip44Levels) : Bool :=
  b.m_bip32.depth == level.toNat

/-- `Bip44Base.IsLevel`: raises `TypeError` when the argument is not a
`Bip44Levels` enumerative, otherwise compares the depth with the level. -/
def Bip44Base.IsLevel (b : Bip44Base) (level : LevelArg) : Except Err Bool :=
  match level with
  | .invalid => .error .typeError
  | .valid l => .ok (b.isLevelChk l)

/-- `Bip44Base._PurposeGeneric`: requires depth MASTER, then derives the
purpose child and re-runs the constructor on it. -/
def Bip44Base.PurposeGeneric (b : Bip44Base) (purpose : Nat) :
    Except Err Bip44Base :=
  if ¬ b.isLevelChk .MASTER then .error .depthError
  else Bip44Base.ctor (b.m_bip32.ChildKey purpose) b.m_coin_conf

/-- `Bip44Base._CoinGeneric`: requires depth PURPOSE, then derives the
hardened coin-index child from the coin configuration. -/
def Bip44Base.CoinGeneric (b : Bip44Base) : Except Err Bip44Base :=
  if ¬ b.isLevelChk .PURPOSE then .error .depthError
  else Bip44Base.ctor (b.m_bip32.ChildKey (hardenIndex b.m_coin_conf.CoinIndex))
    b.m_coin_conf

/-- `Bip44Base._AccountGeneric`: requires depth COIN, then derives the
hardened account-index child. -/
def Bip44Base.AccountGeneric (b : Bip44Base) (acc_idx : Nat) :
    Except Err Bip44Base :=
  if ¬ b.isLevelChk .COIN then .error .depthError
  else Bip44Base.ctor (b.m_bip32.ChildKey (hardenIndex acc_idx)) b.m_coin_conf

/-- `Bip44Base._ChangeGeneric`: first the `isinstance` check on the change
type (TypeError), then the depth ACCOUNT check (DepthError), then the
change child is derived, hardened exactly when the curve does not support
non-hardened private derivation. -/
def Bip44Base.ChangeGeneric (b : Bip44Base) (change_type : ChangeArg) :
    Except Err Bip44Base :=
  match change_type with
  | .invalid => .error .typeError
  | .valid ct =>
    if ¬ b.isLevelChk .ACCOUNT then .error .depthError
    else
      let change_idx :=
        if ¬ b.m_bip32.IsPrivateUnhardenedDerivationSupported then
          hardenIndex ct.toNat
        else ct.toNat
      Bip44Base.ctor (b.m_bip32.ChildKey change_idx) b.m_coin_conf

/-- `Bip44Base._AddressIndexGeneric`: requires depth CHANGE, then derives
the address-index child, hardened exactly when the curve does not support
non-hardened private derivation. -/
def Bip44Base.AddressIndexGeneric (b : Bip44Base) (addr_idx : Nat) :
    Except Err Bip44Base :=
  if ¬ b.isLevelChk .CHANGE then .error .depthError
  else
    let idx :=
      if ¬ b.m_bip32.IsPrivateUnhardenedDerivationSupported then
        hardenIndex addr_idx
      else addr_idx
    Bip44Base.ctor (b.m_bip32.ChildKey idx) b.m_coin_conf

/-- `Bip44Base._DeriveDefaultPathGeneric`: requires depth MASTER, derives
purpose then coin through the step operations, then applies the coin
configuration's default path and re-runs the constructor. -/
def Bip44Base.DeriveDefaultPathGeneric (b : Bip44Base) (purpose : Nat) :
    Except Err Bip44Base :=
  if ¬ b.isLevelChk .MASTER then .error .depthError
  else
    (Bip44Base.PurposeGeneric b purpose).bind fun b1 =>
      (Bip44Base.CoinGeneric b1).bind fun b2 =>
        Bip44Base.ctor (b2.m_bip32.DerivePath b2.m_coin_conf.DefaultPath)
          b2.m_coin_conf

/-- `Bip44Base.PublicKey` with its `lru_cache` made explicit: if the memo
cell is populated its content is returned unchanged, otherwise the public
key object is computed from the Bip32 key material and stored. Returns the
key together with the (possibly updated) object. -/
def Bip44Base.PublicKeyCached (b : Bip44Base) : Bip44PublicKey × Bip44Base :=
  match b.m_pub_cache with
  | some k => (k, b)
  | none =>
    let k : Bip44PublicKey :=
      { pubBytes := b.m_bip32.pubFun b.m_bip32.keyData, coinConf := b.m_coin_conf }
    (k, { b with m_pub_cache := some k })

/-- A sample curve CKD capability used to instantiate witnesses. -/
def sampleCkd : List Nat → List Nat → Nat → List Nat × List Nat :=
  fun k c i => (i % 256 :: k, (i / 256) % 256 :: c)

/-- A sample Bip32 object of the given depth, public-only flag and
unhardened-derivation capability flag. -/
def mkSampleB32 (d : Nat) (pub : Bool) (unh : Bool) : Bip32Base :=
  { keyData := [1]
    chainCode := [2]
    depth := d
    childIndex := 0
    pubOnly := pub
    unhardenedOk := unh
    ckdFun := sampleCkd
    pubFun := fun k => 3 :: k
    indexTrace := [] }

/-- A sample `Bip44Base` object at the given depth over a given coin
configuration (private, unhardened derivation supported). -/
def mkSampleBip44 (d : Nat) (conf : BipCoinConf) : Bip44Base :=
  { m_bip32 := mkSampleB32 d false true
    m_coin_conf := conf
    m_pub_cache := none }

/-- A sample master-level `Bip44Base` object. -/
def sampleMaster : Bip44Base :=
  mkSampleBip44 0 Bip84Conf.BitcoinMainNet

/-- The object the purpose step produces from `sampleMaster` with purpose
index 44. -/
def samplePurposeChild : Bip44Base :=
  { m_bip32 := sampleMaster.m_bip32.ChildKey 44
    m_coin_conf := sampleMaster.m_coin_conf
    m_pub_cache := none }

/-- The object `DeriveDefaultPathGeneric` produces from `sampleMaster`
with purpose index 84: purpose step, hardened coin step, then the three
default-path steps. -/
def sampleDefaultChild : Bip44Base :=
  { m_bip32 :=
      ((sampleMaster.m_bip32.ChildKey 84).ChildKey
        (hardenIndex 0)).DerivePath NOT_HARDENED_DEF_PATH
    m_coin_conf := Bip84Conf.BitcoinMainNet
    m_pub_cache := none }

/-- A sample account-level object over a curve that does not support
non-hardened private derivation. -/
def sampleAccountHard : Bip44Base :=
  { m_bip32 := mkSampleB32 3 false false
    m_coin_conf := Bip84Conf.BitcoinMainNet
    m_pub_cache := none }

/-- The object the change step produces from `sampleAccountHard` with
change type `CHAIN_EXT` (the index is hardened because the curve does not
support non-hardened private derivation). -/
def sampleChangeChild : Bip44Base :=
  { m_bip32 := sampleAccountHard.m_bip32.ChildKey (hardenIndex 0)
    m_coin_conf := Bip84Conf.BitcoinMainNet
    m_pub_cache := none }

/-- The word-to-index dictionary built by the `MnemonicWordsList`
constructor, `\x7bwords_list[i]: i for i in range(len(words_list))\x7d`:
entries are inserted for ascending `i`, a later insertion for the same
word overwriting an earlier one. `k` is the index of the first word of the
remaining list. -/
def mkWordsToIdx : List String → Nat → String → Option Nat
  | [], _, _ => none
  | w :: ws, k, x =>
    match mkWordsToIdx ws (k + 1) x with
    | some j => some j
    | none => if x = w then some k else none

/-- `MnemonicWordsList`: the words list together with the word-to-index
dictionary. -/
structure MnemonicWordsList where
  m_idx_to_words : List String
  m_words_to_idx : String → Option Nat

/-- `MnemonicWordsList.__init__`: stores the list and builds the
dictionary from it. -/
def MnemonicWordsList.ofWords (words_list : List String) : MnemonicWordsList :=
  { m_idx_to_words := words_list
    m_words_to_idx := mkWordsToIdx words_list 0 }

/-- `MnemonicWordsList.GetWordIdx`: dictionary lookup; a missing word
(`KeyError`) is re-raised as `ValueError`. -/
def MnemonicWordsList.GetWordIdx (wl : MnemonicWordsList) (word : String) :
    Except Err Nat :=
  match wl.m_words_to_idx word with
  | some i => .ok i
  | none => .error .valueError

/-- `MnemonicWordsList.GetWordAtIdx`: list indexing; an out-of-range index
(Python `IndexError`) yields `none`. -/
def MnemonicWordsList.GetWordAtIdx (wl : MnemonicWordsList) (word_idx : Nat) :
    Option String :=
  wl.m_idx_to_words.get? word_idx

/-- The inner loop of `_FindLanguageGeneric`: `GetWordIdx` is called on
every word of the mnemonic; the first `ValueError` aborts the language. -/
def tryAllWords (wl : MnemonicWordsList) : List String → Bool
  | [] => true
  | w :: ws =>
    match wl.GetWordIdx w with
    | .ok _ => tryAllWords wl ws
    | .error _ => false

/-- `MnemonicWordsListFinderBase._FindLanguageGeneric`: iterate the
languages in enumeration order; for each, load its words list (a load
failure raises `ValueError`, caught and skipped) and look up every
mnemonic word (a missing word raises `ValueError`, caught and skipped);
the first fully matching language is returned; if none matches,
`ValueError` is raised (`none`). -/
def FindLanguageGeneric {α : Type} (mnemonic : List String)
    (getByLanguage : α → Option MnemonicWordsList) :
    List α → Option (MnemonicWordsList × α)
  | [] => none
  | lang :: rest =>
    match getByLanguage lang with
    | none => FindLanguageGeneric mnemonic getByLanguage rest
    | some wl =>
      if tryAllWords wl mnemonic then some (wl, lang)
      else FindLanguageGeneric mnemonic getByLanguage rest

/-- Whether a language's words list loads and contains every word of the
mnemonic (the condition under which `_FindLanguageGeneric` accepts the
language). -/
def languageMatches {α : Type} (mnemonic : List String)
    (getByLanguage : α → Option MnemonicWordsList) (lang : α) : Bool :=
  match getByLanguage lang with
  | none => false
  | some wl => tryAllWords wl mnemonic

/-- A sample words-list getter over languages numbered by `Nat`: language
0 has the words list `["x"]`, every other language has `["a", "b"]`. -/
def sampleGetBy : Nat → Option MnemonicWordsList :=
  fun lang =>
    if lang = 0 then some (MnemonicWordsList.ofWords ["x"])
    else some (MnemonicWordsList.ofWords ["a", "b"])

/-- `SubstrateScaleUIntEncoder`: the byte count and the maximum accepted
value `(2 << (bytes_num * 8)) - 1` computed at construction. -/
structure SubstrateScaleUIntEncoder where
  m_bytes_num : Nat
  m_max_val : Nat

/-- `SubstrateScaleUIntEncoder.__init__`. -/
def SubstrateScaleUIntEncoder.ofBytesNum (bytes_num : Nat) :
    SubstrateScaleUIntEncoder :=
  { m_bytes_num := bytes_num
    m_max_val := (2 <<< (bytes_num * 8)) - 1 }

/-- Modelled from the spec: `IntegerUtils.ToBytes(value, bytes_num,
endianness="little")` (the `IntegerUtils` module is not among the given
sources): the fixed-width little-endian byte encoding of a non-negative
integer. -/
def toBytesLittleEndian : Nat → Nat → List Nat
  | _, 0 => []
  | value, n + 1 => value % 256 :: toBytesLittleEndian (value / 256) n

/-- `SubstrateScaleUIntEncoder.Encode`: the explicit range guard raises
`ValueError` when the value is negative or exceeds `m_max_val`; otherwise
the value is encoded as `m_bytes_num` little-endian bytes. -/
def SubstrateScaleUIntEncoder.Encode (e : SubstrateScaleUIntEncoder)
    (value : Int) : Except Err (List Nat) :=
  if value < 0 ∨ (e.m_max_val : Int) < value then .error .valueError
  else .ok (toBytesLittleEndian value.toNat e.m_bytes_num)

end BipUtils

namespace BipUtils

/-- Closed form of `Bip44Base.ctor`: the vacuous `depth < 0` test of the
private branch is dropped. -/
theorem Bip44Base.ctor_spec (b32 : Bip32Base) (conf : BipCoinConf) :
    Bip44Base.ctor b32 conf =
      if b32.pubOnly = true then
        (if b32.depth < 3 ∨ 5 < b32.depth then .error .depthError
         else .ok { m_bip32 := b32, m_coin_conf := conf, m_pub_cache := none })
      else
        (if 5 < b32.depth then .error .depthError
         else .ok { m_bip32 := b32, m_coin_conf := conf, m_pub_cache := none }) := by
  cases hp : b32.pubOnly <;>
    simp [Bip44Base.ctor, Bip32Base.IsPublicOnly, hp, Bip44Levels.toNat]

/-- C1: `Bip44Base` construction validates depth against public/private
status: for a public-only Bip32 object it succeeds iff the depth lies in
`[ACCOUNT, ADDRESS_INDEX] = [3, 5]`, for a private one iff the depth lies
in `[0, 5]`; every failure is a `DepthError`; and on success the stored
Bip32 object is exactly the argument (no derivation happens at
construction). -/
theorem bip44_ctor_depth_validation (b32 : Bip32Base) (conf : BipCoinConf) :
    (b32.pubOnly = true →
      (exceptOk (Bip44Base.ctor b32 conf) = true ↔ 3 ≤ b32.depth ∧ b32.depth ≤ 5)) ∧
    (b32.pubOnly = false →
      (exceptOk (Bip44Base.ctor b32 conf) = true ↔ b32.depth ≤ 5)) ∧
    (∀ e, Bip44Base.ctor b32 conf = .error e → e = .depthError) ∧
    (∀ r, Bip44Base.ctor b32 conf = .ok r → r.m_bip32 = b32) := by
  have hs := Bip44Base.ctor_spec b32 conf
  refine ⟨?_, ?_, ?_, ?_⟩
  · intro hpub
    rw [hs, if_pos hpub]
    by_cases hd : b32.depth < 3 ∨ 5 < b32.depth
    · rw [if_pos hd]; simp [exceptOk]; omega
    · rw [if_neg hd]; simp [exceptOk]; omega
  · intro hpriv
    rw [hs, if_neg (by simp [hpriv])]
    by_cases hd : 5 < b32.depth
    · rw [if_pos hd]; simp [exceptOk]; omega
    · rw [if_neg hd]; simp [exceptOk]; omega
  · rw [hs]; intro e he
    split at he <;> split at he <;> cases he <;> rfl
  · rw [hs]; intro r hr
    split at hr <;> split at hr <;> cases hr <;> rfl

/-- Witness for C1: constructing from a public-only object with depth 2
fails, with depth 3 it succeeds. -/
theorem bip44_ctor_depth_validation_witness :
    exceptOk (Bip44Base.ctor (mkSampleB32 2 true true) Bip84Conf.BitcoinMainNet) = false ∧
    exceptOk (Bip44Base.ctor (mkSampleB32 3 true true) Bip84Conf.BitcoinMainNet) = true := by
  constructor
  · have h := (bip44_ctor_depth_validation (mkSampleB32 2 true true)
      Bip84Conf.BitcoinMainNet).1 rfl
    have h2 : ¬ (3 ≤ (mkSampleB32 2 true true).depth ∧ (mkSampleB32 2 true true).depth ≤ 5) := by
      simp [mkSampleB32]
    cases hb : exceptOk (Bip44Base.ctor (mkSampleB32 2 true true) Bip84Conf.BitcoinMainNet)
    · rfl
    · exact absurd (h.mp hb) h2
  · exact (bip44_ctor_depth_validation (mkSampleB32 3 true true)
      Bip84Conf.BitcoinMainNet).1 rfl |>.mpr (by simp [mkSampleB32])

/-- If the constructor succeeds, the stored Bip32 object is the argument. -/
theorem ctor_ok_bip32 (b32 : Bip32Base) (conf : BipCoinConf) (r : Bip44Base)
    (h : Bip44Base.ctor b32 conf = .ok r) : r.m_bip32 = b32 := by
  have hs := Bip44Base.ctor_spec b32 conf
  rw [hs] at h
  split at h <;> split at h <;> cases h <;> rfl

/-- The purpose step at a depth other than MASTER raises `DepthError`. -/
theorem purpose_wrong_depth (b : Bip44Base) (p : Nat)
    (h : b.m_bip32.depth ≠ 0) :
    Bip44Base.PurposeGeneric b p = .error .depthError := by
  simp [Bip44Base.PurposeGeneric, Bip44Base.isLevelChk, Bip44Levels.toNat, h]

/-- The coin step at a depth other than PURPOSE raises `DepthError`. -/
theorem coin_wrong_depth (b : Bip44Base)
    (h : b.m_bip32.depth ≠ 1) :
    Bip44Base.CoinGeneric b = .error .depthError := by
  simp [Bip44Base.CoinGeneric, Bip44Base.isLevelChk, Bip44Levels.toNat, h]

/-- The account step at a depth other than COIN raises `DepthError`. -/
theorem account_wrong_depth (b : Bip44Base) (acc : Nat)
    (h : b.m_bip32.depth ≠ 2) :
    Bip44Base.AccountGeneric b acc = .error .depthError := by
  simp [Bip44Base.AccountGeneric, Bip44Base.isLevelChk, Bip44Levels.toNat, h]

/-- The change step at a depth other than ACCOUNT raises `DepthError`. -/
theorem change_wrong_depth (b : Bip44Base) (ct : Bip44Changes)
    (h : b.m_bip32.depth ≠ 3) :
    Bip44Base.ChangeGeneric b (.valid ct) = .error .depthError := by
  simp [Bip44Base.ChangeGeneric, Bip44Base.isLevelChk, Bip44Levels.toNat, h]

/-- The address-index step at a depth other than CHANGE raises
`DepthError`. -/
theorem address_wrong_depth (b : Bip44Base) (addr : Nat)
    (h : b.m_bip32.depth ≠ 4) :
    Bip44Base.AddressIndexGeneric b addr = .error .depthError := by
  simp [Bip44Base.AddressIndexGeneric, Bip44Base.isLevelChk, Bip44Levels.toNat, h]

/-- C2: each single-step derivation is guarded by an exact-depth
precondition: at any other depth the step raises `DepthError`, and a
successful step implies the parent depth was exactly the required
predecessor level. -/
theorem bip44_step_depth_guards (b : Bip44Base) (p acc addr : Nat)
    (ct : Bip44Changes) :
    (b.m_bip32.depth ≠ 0 → Bip44Base.PurposeGeneric b p = .error .depthError) ∧
    (b.m_bip32.depth ≠ 1 → Bip44Base.CoinGeneric b = .error .depthError) ∧
    (b.m_bip32.depth ≠ 2 → Bip44Base.AccountGeneric b acc = .error .depthError) ∧
    (b.m_bip32.depth ≠ 3 → Bip44Base.ChangeGeneric b (.valid ct) = .error .depthError) ∧
    (b.m_bip32.depth ≠ 4 → Bip44Base.AddressIndexGeneric b addr = .error .depthError) ∧
    (∀ r, Bip44Base.PurposeGeneric b p = .ok r → b.m_bip32.depth = 0) ∧
    (∀ r, Bip44Base.CoinGeneric b = .ok r → b.m_bip32.depth = 1) ∧
    (∀ r, Bip44Base.AccountGeneric b acc = .ok r → b.m_bip32.depth = 2) ∧
    (∀ r, Bip44Base.ChangeGeneric b (.valid ct) = .ok r → b.m_bip32.depth = 3) ∧
    (∀ r, Bip44Base.AddressIndexGeneric b addr = .ok r → b.m_bip32.depth = 4) := by
  refine ⟨purpose_wrong_depth b p, coin_wrong_depth b, account_wrong_depth b acc,
    change_wrong_depth b ct, address_wrong_depth b addr, ?_, ?_, ?_, ?_, ?_⟩
  · intro r hr
    by_contra hd
    rw [purpose_wrong_depth b p hd] at hr
    cases hr
  · intro r hr
    by_contra hd
    rw [coin_wrong_depth b hd] at hr
    cases hr
  · intro r hr
    by_contra hd
    rw [account_wrong_depth b acc hd] at hr
    cases hr
  · intro r hr
    by_contra hd
    rw [change_wrong_depth b ct hd] at hr
    cases hr
  · intro r hr
    by_contra hd
    rw [address_wrong_depth b addr hd] at hr
    cases hr

/-- Witness for C2: purpose derivation on an object at depth 5 (and coin
derivation on an object at depth 0) fails with `DepthError`. -/
theorem bip44_step_depth_guards_witness :
    Bip44Base.PurposeGeneric (mkSampleBip44 5 Bip84Conf.BitcoinMainNet) 44 =
      .error .depthError ∧
    Bip44Base.CoinGeneric (mkSampleBip44 0 Bip84Conf.BitcoinMainNet) =
      .error .depthError := by
  constructor
  · exact (bip44_step_depth_guards (mkSampleBip44 5 Bip84Conf.BitcoinMainNet)
      44 0 0 .CHAIN_EXT).1 (by decide)
  · exact (bip44_step_depth_guards (mkSampleBip44 0 Bip84Conf.BitcoinMainNet)
      44 0 0 .CHAIN_EXT).2.1 (by decide)

/-- C7: passing a wrong enumerant fails fast with `TypeError`: `IsLevel`
rejects a non-`Bip44Levels` argument, and `_ChangeGeneric` rejects a
non-`Bip44Changes` argument at every depth (so the `TypeError` takes
precedence over any `DepthError`), and in both cases no derived object is
produced. -/
theorem bip44_enum_type_guard (b : Bip44Base) :
    Bip44Base.IsLevel b LevelArg.invalid = .error .typeError ∧
    Bip44Base.ChangeGeneric b ChangeArg.invalid = .error .typeError :=
  ⟨rfl, rfl⟩

/-- If the constructor succeeds, the stored coin configuration is the
argument. -/
theorem ctor_ok_conf (b32 : Bip32Base) (conf : BipCoinConf) (r : Bip44Base)
    (h : Bip44Base.ctor b32 conf = .ok r) : r.m_coin_conf = conf := by
  have hs := Bip44Base.ctor_spec b32 conf
  rw [hs] at h
  split at h <;> split at h <;> cases h <;> rfl

/-- A successful purpose step wraps exactly the purpose child key. -/
theorem purpose_ok_child (b : Bip44Base) (p : Nat) (r : Bip44Base)
    (h : Bip44Base.PurposeGeneric b p = .ok r) :
    r.m_bip32 = b.m_bip32.ChildKey p ∧ r.m_coin_conf = b.m_coin_conf := by
  unfold Bip44Base.PurposeGeneric at h
  by_cases hc : ¬ b.isLevelChk Bip44Levels.MASTER = true
  · rw [if_pos hc] at h; cases h
  · rw [if_neg hc] at h
    exact ⟨ctor_ok_bip32 _ _ _ h, ctor_ok_conf _ _ _ h⟩

/-- A successful coin step wraps exactly the hardened coin-index child. -/
theorem coin_ok_child (b : Bip44Base) (r : Bip44Base)
    (h : Bip44Base.CoinGeneric b = .ok r) :
    r.m_bip32 = b.m_bip32.ChildKey (hardenIndex b.m_coin_conf.CoinIndex) ∧
      r.m_coin_conf = b.m_coin_conf := by
  unfold Bip44Base.CoinGeneric at h
  by_cases hc : ¬ b.isLevelChk Bip44Levels.PURPOSE = true
  · rw [if_pos hc] at h; cases h
  · rw [if_neg hc] at h
    exact ⟨ctor_ok_bip32 _ _ _ h, ctor_ok_conf _ _ _ h⟩

/-- A successful account step wraps exactly the hardened account child. -/
theorem account_ok_child (b : Bip44Base) (acc : Nat) (r : Bip44Base)
    (h : Bip44Base.AccountGeneric b acc = .ok r) :
    r.m_bip32 = b.m_bip32.ChildKey (hardenIndex acc) ∧
      r.m_coin_conf = b.m_coin_conf := by
  unfold Bip44Base.AccountGeneric at h
  by_cases hc : ¬ b.isLevelChk Bip44Levels.COIN = true
  · rw [if_pos hc] at h; cases h
  · rw [if_neg hc] at h
    exact ⟨ctor_ok_bip32 _ _ _ h, ctor_ok_conf _ _ _ h⟩

/-- A successful change step wraps the change child, whose index is
hardened exactly when the curve does not support non-hardened private
derivation. -/
theorem change_ok_child (b : Bip44Base) (ct : Bip44Changes) (r : Bip44Base)
    (h : Bip44Base.ChangeGeneric b (.valid ct) = .ok r) :
    r.m_bip32 = b.m_bip32.ChildKey
        (if ¬ b.m_bip32.IsPrivateUnhardenedDerivationSupported = true then
          hardenIndex ct.toNat
        else ct.toNat) ∧
      r.m_coin_conf = b.m_coin_conf := by
  simp only [Bip44Base.ChangeGeneric] at h
  by_cases hc : ¬ b.isLevelChk Bip44Levels.ACCOUNT = true
  · rw [if_pos hc] at h; cases h
  · rw [if_neg hc] at h
    exact ⟨ctor_ok_bip32 _ _ _ h, ctor_ok_conf _ _ _ h⟩

/-- A successful address-index step wraps the address child, whose index
is hardened exactly when the curve does not support non-hardened private
derivation. -/
theorem address_ok_child (b : Bip44Base) (addr : Nat) (r : Bip44Base)
    (h : Bip44Base.AddressIndexGeneric b addr = .ok r) :
    r.m_bip32 = b.m_bip32.ChildKey
        (if ¬ b.m_bip32.IsPrivateUnhardenedDerivationSupported = true then
          hardenIndex addr
        else addr) ∧
      r.m_coin_conf = b.m_coin_conf := by
  unfold Bip44Base.AddressIndexGeneric at h
  by_cases hc : ¬ b.isLevelChk Bip44Levels.CHANGE = true
  · rw [if_pos hc] at h; cases h
  · rw [if_neg hc] at h
    exact ⟨ctor_ok_bip32 _ _ _ h, ctor_ok_conf _ _ _ h⟩

/-- The depth of a child key is the parent depth plus one. -/
theorem childKey_depth (b : Bip32Base) (i : Nat) :
    (b.ChildKey i).depth = b.depth + 1 := rfl

/-- The ghost trace of a child key extends the parent trace by the index
used. -/
theorem childKey_trace (b : Bip32Base) (i : Nat) :
    (b.ChildKey i).indexTrace = b.indexTrace ++ [i] := rfl

/-- Path derivation adds the path length to the depth. -/
theorem derivePath_depth (path : List Nat) :
    ∀ b : Bip32Base, (b.DerivePath path).depth = b.depth + path.length := by
  induction path with
  | nil => intro b; rfl
  | cons i rest ih =>
    intro b
    have hstep : b.DerivePath (i :: rest) = (b.ChildKey i).DerivePath rest := rfl
    rw [hstep, ih, childKey_depth]
    simp [Nat.add_assoc, Nat.add_comm 1 rest.length]

/-- Path derivation appends the path to the ghost trace. -/
theorem derivePath_trace (path : List Nat) :
    ∀ b : Bip32Base, (b.DerivePath path).indexTrace = b.indexTrace ++ path := by
  induction path with
  | nil => intro b; simp [Bip32Base.DerivePath]
  | cons i rest ih =>
    intro b
    have hstep : b.DerivePath (i :: rest) = (b.ChildKey i).DerivePath rest := rfl
    rw [hstep, ih, childKey_trace]
    simp

/-- `_DeriveDefaultPathGeneric` equals the left-to-right monadic
composition of the purpose step, the coin step, and the constructor
applied to the default-path derivation; the first error is propagated. -/
theorem default_path_eq (b : Bip44Base) (p : Nat) :
    Bip44Base.DeriveDefaultPathGeneric b p =
      (Bip44Base.PurposeGeneric b p).bind fun b1 =>
        (Bip44Base.CoinGeneric b1).bind fun b2 =>
          Bip44Base.ctor (b2.m_bip32.DerivePath b2.m_coin_conf.DefaultPath)
            b2.m_coin_conf := by
  unfold Bip44Base.DeriveDefaultPathGeneric
  by_cases hc : ¬ b.isLevelChk Bip44Levels.MASTER = true
  · rw [if_pos hc]
    have hd : b.m_bip32.depth ≠ 0 := by
      simpa [Bip44Base.isLevelChk, Bip44Levels.toNat] using hc
    rw [purpose_wrong_depth b p hd]
    rfl
  · rw [if_neg hc]

/-- C5: depth monotonicity. Every successful single-step derivation
produces an object one deeper than its parent, and the default-path
derivation never decreases the depth. -/
theorem bip44_depth_monotonic (b : Bip44Base) (p acc addr : Nat)
    (ct : Bip44Changes) :
    (∀ r, Bip44Base.PurposeGeneric b p = .ok r →
      r.m_bip32.depth = b.m_bip32.depth + 1) ∧
    (∀ r, Bip44Base.CoinGeneric b = .ok r →
      r.m_bip32.depth = b.m_bip32.depth + 1) ∧
    (∀ r, Bip44Base.AccountGeneric b acc = .ok r →
      r.m_bip32.depth = b.m_bip32.depth + 1) ∧
    (∀ r, Bip44Base.ChangeGeneric b (.valid ct) = .ok r →
      r.m_bip32.depth = b.m_bip32.depth + 1) ∧
    (∀ r, Bip44Base.AddressIndexGeneric b addr = .ok r →
      r.m_bip32.depth = b.m_bip32.depth + 1) ∧
    (∀ r, Bip44Base.DeriveDefaultPathGeneric b p = .ok r →
      b.m_bip32.depth ≤ r.m_bip32.depth) := by
  refine ⟨?_, ?_, ?_, ?_, ?_, ?_⟩
  · intro r hr
    rw [(purpose_ok_child b p r hr).1, childKey_depth]
  · intro r hr
    rw [(coin_ok_child b r hr).1, childKey_depth]
  · intro r hr
    rw [(account_ok_child b acc r hr).1, childKey_depth]
  · intro r hr
    rw [(change_ok_child b ct r hr).1, childKey_depth]
  · intro r hr
    rw [(address_ok_child b addr r hr).1, childKey_depth]
  · intro r hr
    unfold Bip44Base.DeriveDefaultPathGeneric at hr
    by_cases hc : ¬ b.isLevelChk Bip44Levels.MASTER = true
    · rw [if_pos hc] at hr; cases hr
    · have h0 : b.m_bip32.depth = 0 := by
        have := not_not.mp hc
        simpa [Bip44Base.isLevelChk, Bip44Levels.toNat] using this
      rw [h0]
      exact Nat.zero_le _

/-- Witness for C5: the purpose step from the sample master yields an
object at depth 1 = 0 + 1. -/
theorem bip44_depth_monotonic_witness :
    samplePurposeChild.m_bip32.depth = sampleMaster.m_bip32.depth + 1 :=
  (bip44_depth_monotonic sampleMaster 44 0 0 .CHAIN_EXT).1 samplePurposeChild rfl

/-- C4: `DeriveDefaultPathGeneric` succeeds only at depth MASTER and
raises `DepthError` at every other depth; it equals the left-to-right
composition of the purpose step, the coin step and the default path, so
the first failure is propagated and no partial result is returned; and on
success with a three-step default path (as in every configuration of the
sources) the result is at ADDRESS_INDEX level. -/
theorem bip44_default_path_spec (b : Bip44Base) (p : Nat) :
    (b.m_bip32.depth ≠ 0 →
      Bip44Base.DeriveDefaultPathGeneric b p = .error .depthError) ∧
    (∀ r, Bip44Base.DeriveDefaultPathGeneric b p = .ok r → b.m_bip32.depth = 0) ∧
    (Bip44Base.DeriveDefaultPathGeneric b p =
      (Bip44Base.PurposeGeneric b p).bind fun b1 =>
        (Bip44Base.CoinGeneric b1).bind fun b2 =>
          Bip44Base.ctor (b2.m_bip32.DerivePath b2.m_coin_conf.DefaultPath)
            b2.m_coin_conf) ∧
    (b.m_coin_conf.def_path.length = 3 →
      ∀ r, Bip44Base.DeriveDefaultPathGeneric b p = .ok r →
        r.m_bip32.depth = 5 ∧ r.isLevelChk Bip44Levels.ADDRESS_INDEX = true) := by
  refine ⟨?_, ?_, default_path_eq b p, ?_⟩
  · intro hd
    unfold Bip44Base.DeriveDefaultPathGeneric
    simp [Bip44Base.isLevelChk, Bip44Levels.toNat, hd]
  · intro r hr
    by_contra hd
    unfold Bip44Base.DeriveDefaultPathGeneric at hr
    rw [if_pos (by simpa [Bip44Base.isLevelChk, Bip44Levels.toNat] using hd)] at hr
    cases hr
  · intro hlen r hr
    rw [default_path_eq b p] at hr
    cases hp : Bip44Base.PurposeGeneric b p with
    | error e => rw [hp] at hr; cases hr
    | ok b1 =>
      rw [hp] at hr
      simp only [Except.bind] at hr
      cases hcn : Bip44Base.CoinGeneric b1 with
      | error e => rw [hcn] at hr; cases hr
      | ok b2 =>
        rw [hcn] at hr
        have hb1 := purpose_ok_child b p b1 hp
        have hb2 := coin_ok_child b1 b2 hcn
        have hd0 : b.m_bip32.depth = 0 := by
          by_contra hd
          rw [purpose_wrong_depth b p hd] at hp
          cases hp
        have hrb := ctor_ok_bip32 _ _ _ hr
        have hdep : r.m_bip32.depth = 5 := by
          rw [hrb, derivePath_depth, hb2.1, childKey_depth, hb1.1,
            childKey_depth, hd0]
          have hc2 : b2.m_coin_conf = b.m_coin_conf := by
            rw [hb2.2, hb1.2]
          simp [BipCoinConf.DefaultPath, hc2, hlen]
        exact ⟨hdep, by simp [Bip44Base.isLevelChk, Bip44Levels.toNat, hdep]⟩

/-- Witness for C4: from the sample master the default-path derivation
yields the expected object at depth 5 (ADDRESS_INDEX), and at depth 3 it
fails with `DepthError`. -/
theorem bip44_default_path_spec_witness :
    sampleDefaultChild.m_bip32.depth = 5 ∧
    Bip44Base.DeriveDefaultPathGeneric (mkSampleBip44 3 Bip84Conf.BitcoinMainNet)
      44 = .error .depthError := by
  constructor
  · exact ((bip44_default_path_spec sampleMaster 84).2.2.2 rfl
      sampleDefaultChild rfl).1
  · exact (bip44_default_path_spec (mkSampleBip44 3 Bip84Conf.BitcoinMainNet)
      44).1 (by decide)

/-- The child index stored by a child-key step is the index used. -/
theorem childKey_index (b : Bip32Base) (i : Nat) :
    (b.ChildKey i).childIndex = i := rfl

/-- A hardened index is recognized as hardened. -/
theorem isHardened_harden (i : Nat) :
    isHardenedIndex (hardenIndex i) = true := by
  simp [isHardenedIndex, hardenIndex]

/-- An index below `2^31` is not hardened. -/
theorem isHardened_small (i : Nat) (h : i < 2 ^ 31) :
    isHardenedIndex i = false := by
  simp [isHardenedIndex]
  omega

/-- C3: the child index used by the change step is hardened exactly when
the curve does not support non-hardened private derivation; and the change
step inside the default-path derivation (position 3 of the ghost index
trace: purpose, coin, account, change, address) resolves hardening the
same way for the coin configurations of the sources. -/
theorem bip44_change_hardening (b : Bip44Base) (ct : Bip44Changes) (p : Nat) :
    (∀ r, Bip44Base.ChangeGeneric b (.valid ct) = .ok r →
      isHardenedIndex r.m_bip32.childIndex = ! b.m_bip32.unhardenedOk) ∧
    (b.m_coin_conf ∈ bip84Confs →
      b.m_bip32.unhardenedOk = b.m_coin_conf.bip32Cls.unhardenedOk →
      b.m_bip32.indexTrace = [] →
      ∀ r, Bip44Base.DeriveDefaultPathGeneric b p = .ok r →
        isHardenedIndex (r.m_bip32.indexTrace.getD 3 0) =
          ! b.m_bip32.unhardenedOk) := by
  constructor
  · intro r hr
    rw [(change_ok_child b ct r hr).1, childKey_index]
    cases hu : b.m_bip32.unhardenedOk with
    | true =>
      rw [if_neg (by simp [Bip32Base.IsPrivateUnhardenedDerivationSupported, hu])]
      have hsmall : ct.toNat < 2 ^ 31 := by cases ct <;> decide
      simp [isHardened_small ct.toNat hsmall]
    | false =>
      rw [if_pos (by simp [Bip32Base.IsPrivateUnhardenedDerivationSupported, hu])]
      simp [isHardened_harden]
  · intro hconf hflag htr r hr
    rw [default_path_eq b p] at hr
    cases hp : Bip44Base.PurposeGeneric b p with
    | error e => rw [hp] at hr; cases hr
    | ok b1 =>
      rw [hp] at hr
      simp only [Except.bind] at hr
      cases hcn : Bip44Base.CoinGeneric b1 with
      | error e => rw [hcn] at hr; cases hr
      | ok b2 =>
        rw [hcn] at hr
        have hb1 := purpose_ok_child b p b1 hp
        have hb2 := coin_ok_child b1 b2 hcn
        have hrb := ctor_ok_bip32 _ _ _ hr
        have hpath : b.m_coin_conf.def_path = NOT_HARDENED_DEF_PATH ∧
            b.m_coin_conf.bip32Cls = Bip32Secp256k1 := by
          simp only [bip84Confs, List.mem_cons, List.not_mem_nil, or_false] at hconf
          rcases hconf with h | h | h | h <;> rw [h] <;> exact ⟨rfl, rfl⟩
        have hc2 : b2.m_coin_conf = b.m_coin_conf := by rw [hb2.2, hb1.2]
        have htrace : r.m_bip32.indexTrace =
            [p, hardenIndex b.m_coin_conf.coin_idx] ++ NOT_HARDENED_DEF_PATH := by
          rw [hrb, derivePath_trace, hb2.1, childKey_trace, hb1.1,
            childKey_trace, htr]
          simp [hc2, hb1.2, BipCoinConf.DefaultPath, BipCoinConf.CoinIndex,
            hpath.1]
        rw [htrace]
        have hget : ([p, hardenIndex b.m_coin_conf.coin_idx] ++
            NOT_HARDENED_DEF_PATH).getD 3 0 = 0 := rfl
        rw [hget, hflag, hpath.2]
        decide

/-- Witness for C3: the explicit change step over a curve without
non-hardened private derivation uses a hardened index, and the default
path over secp256k1 uses a non-hardened change index, both matching the
curve flag. -/
theorem bip44_change_hardening_witness :
    isHardenedIndex sampleChangeChild.m_bip32.childIndex =
      ! sampleAccountHard.m_bip32.unhardenedOk ∧
    isHardenedIndex (sampleDefaultChild.m_bip32.indexTrace.getD 3 0) =
      ! sampleMaster.m_bip32.unhardenedOk := by
  constructor
  · exact (bip44_change_hardening sampleAccountHard .CHAIN_EXT 0).1
      sampleChangeChild rfl
  · exact (bip44_change_hardening sampleMaster .CHAIN_EXT 84).2
      (by decide) (by decide) rfl sampleDefaultChild rfl

/-- C6: derivation is deterministic and pure. Two invocations of the
account step on the same parent and index yield identical child key
material and chain code; the memo cell of `PublicKey` has no influence on
derivation; the memoized public key of a fresh object equals the pure
recomputation and a repeated call returns the same key; and obtaining the
public key leaves the underlying extended key — and every later
derivation — unchanged. -/
theorem bip44_derivation_pure (b : Bip44Base) (acc : Nat)
    (c : Option Bip44PublicKey) :
    (∀ r1 r2, Bip44Base.AccountGeneric b acc = .ok r1 →
      Bip44Base.AccountGeneric b acc = .ok r2 →
      r1.m_bip32.keyData = r2.m_bip32.keyData ∧
        r1.m_bip32.chainCode = r2.m_bip32.chainCode) ∧
    (Bip44Base.AccountGeneric { b with m_pub_cache := c } acc =
      Bip44Base.AccountGeneric b acc) ∧
    (b.m_pub_cache = none →
      (Bip44Base.PublicKeyCached b).1.pubBytes =
        b.m_bip32.pubFun b.m_bip32.keyData ∧
      (Bip44Base.PublicKeyCached (Bip44Base.PublicKeyCached b).2).1 =
        (Bip44Base.PublicKeyCached b).1) ∧
    ((Bip44Base.PublicKeyCached b).2.m_bip32 = b.m_bip32 ∧
      Bip44Base.AccountGeneric (Bip44Base.PublicKeyCached b).2 acc =
        Bip44Base.AccountGeneric b acc) := by
  obtain ⟨b32, conf, cache⟩ := b
  refine ⟨?_, ?_, ?_, ?_⟩
  · intro r1 r2 h1 h2
    rw [h1] at h2
    cases h2
    exact ⟨rfl, rfl⟩
  · rfl
  · intro hc
    cases hc
    exact ⟨rfl, rfl⟩
  · cases cache <;> exact ⟨rfl, rfl⟩

/-- Witness for C6: on the sample master the memoized public key equals
the pure recomputation, and a populated memo cell does not change the
account derivation. -/
theorem bip44_derivation_pure_witness :
    (Bip44Base.PublicKeyCached sampleMaster).1.pubBytes =
      sampleMaster.m_bip32.pubFun sampleMaster.m_bip32.keyData ∧
    Bip44Base.AccountGeneric
        { sampleMaster with
          m_pub_cache := some { pubBytes := [9], coinConf := Bip84Conf.BitcoinMainNet } }
        0 =
      Bip44Base.AccountGeneric sampleMaster 0 :=
  ⟨((bip44_derivation_pure sampleMaster 0
      (some { pubBytes := [9], coinConf := Bip84Conf.BitcoinMainNet })).2.2.1 rfl).1,
    (bip44_derivation_pure sampleMaster 0
      (some { pubBytes := [9], coinConf := Bip84Conf.BitcoinMainNet })).2.1⟩

/-- The word loop of `_FindLanguageGeneric` succeeds exactly when every
word of the mnemonic has a successful index lookup. -/
theorem tryAllWords_iff (wl : MnemonicWordsList) (ws : List String) :
    tryAllWords wl ws = true ↔ ∀ w ∈ ws, ∃ n, wl.GetWordIdx w = .ok n := by
  induction ws with
  | nil => simp [tryAllWords]
  | cons w rest ih =>
    cases hg : wl.GetWordIdx w with
    | ok n =>
      simp only [tryAllWords, hg, List.mem_cons]
      constructor
      · intro h x hx
        rcases hx with rfl | hx
        · exact ⟨n, hg⟩
        · exact (ih.mp h) x hx
      · intro h
        exact ih.mpr fun x hx => h x (Or.inr hx)
    | error e =>
      simp only [tryAllWords, hg, List.mem_cons]
      constructor
      · intro h; cases h
      · intro h
        rcases h w (Or.inl rfl) with ⟨n, hn⟩
        rw [hg] at hn
        cases hn

/-- C8: `_FindLanguageGeneric` returns the words list and language of the
first language in enumeration order whose list loads and contains every
word of the mnemonic (every earlier language fails to load or lacks some
word), and returns `ValueError` exactly when no language matches. -/
theorem find_language_first (α : Type) (mnemonic : List String)
    (getBy : α → Option MnemonicWordsList) (langs : List α) :
    (∀ wl lang, FindLanguageGeneric mnemonic getBy langs = some (wl, lang) →
      ∃ i, i < langs.length ∧ langs.get? i = some lang ∧
        getBy lang = some wl ∧
        (∀ w ∈ mnemonic, ∃ n, wl.GetWordIdx w = .ok n) ∧
        ∀ j, j < i → ∀ l2, langs.get? j = some l2 →
          languageMatches mnemonic getBy l2 = false) ∧
    (FindLanguageGeneric mnemonic getBy langs = none ↔
      ∀ l ∈ langs, languageMatches mnemonic getBy l = false) := by
  induction langs with
  | nil =>
    constructor
    · intro wl lang h; cases h
    · simp [FindLanguageGeneric]
  | cons lang rest ih =>
    cases hg : getBy lang with
    | none =>
      have hF : FindLanguageGeneric mnemonic getBy (lang :: rest) =
          FindLanguageGeneric mnemonic getBy rest := by
        simp [FindLanguageGeneric, hg]
      have hm : languageMatches mnemonic getBy lang = false := by
        simp [languageMatches, hg]
      constructor
      · intro wl l h
        rw [hF] at h
        rcases ih.1 wl l h with ⟨i, hi, hgeti, hgb, hall, hearlier⟩
        refine ⟨i + 1, by simp only [List.length_cons]; omega,
          by simpa using hgeti, hgb, hall, ?_⟩
        intro j hj l2 hl2
        cases j with
        | zero =>
          simp only [List.get?_cons_zero, Option.some.injEq] at hl2
          rw [← hl2]
          exact hm
        | succ j =>
          exact hearlier j (by omega) l2 (by simpa using hl2)
      · rw [hF]
        constructor
        · intro h l hl
          rcases List.mem_cons.mp hl with rfl | hl
          · exact hm
          · exact (ih.2.mp h) l hl
        · intro h
          exact ih.2.mpr fun l hl => h l (List.mem_cons.mpr (Or.inr hl))
    | some wl0 =>
      cases htry : tryAllWords wl0 mnemonic with
      | true =>
        have hF : FindLanguageGeneric mnemonic getBy (lang :: rest) =
            some (wl0, lang) := by
          simp [FindLanguageGeneric, hg, htry]
        have hm : languageMatches mnemonic getBy lang = true := by
          simp [languageMatches, hg, htry]
        constructor
        · intro wl l h
          rw [hF] at h
          have hinj : wl0 = wl ∧ lang = l := by simpa using h
          obtain ⟨rfl, rfl⟩ := hinj
          refine ⟨0, by simp, by simp, hg,
            (tryAllWords_iff wl0 mnemonic).mp htry, ?_⟩
          intro j hj
          exact absurd hj (Nat.not_lt_zero j)
        · rw [hF]
          constructor
          · intro h; cases h
          · intro h
            have hcontr := h lang (List.mem_cons_self lang rest)
            rw [hm] at hcontr
            cases hcontr
      | false =>
        have hF : FindLanguageGeneric mnemonic getBy (lang :: rest) =
            FindLanguageGeneric mnemonic getBy rest := by
          simp [FindLanguageGeneric, hg, htry]
        have hm : languageMatches mnemonic getBy lang = false := by
          simp [languageMatches, hg, htry]
        constructor
        · intro wl l h
          rw [hF] at h
          rcases ih.1 wl l h with ⟨i, hi, hgeti, hgb, hall, hearlier⟩
          refine ⟨i + 1, by simp only [List.length_cons]; omega,
            by simpa using hgeti, hgb, hall, ?_⟩
          intro j hj l2 hl2
          cases j with
          | zero =>
            simp only [List.get?_cons_zero, Option.some.injEq] at hl2
            rw [← hl2]
            exact hm
          | succ j =>
            exact hearlier j (by omega) l2 (by simpa using hl2)
        · rw [hF]
          constructor
          · intro h l hl
            rcases List.mem_cons.mp hl with rfl | hl
            · exact hm
            · exact (ih.2.mp h) l hl
          · intro h
            exact ih.2.mpr fun l hl => h l (List.mem_cons.mpr (Or.inr hl))

/-- Witness for C8: with the sample getter and languages `[0, 1]`, the
mnemonic `["q"]` is found in no language, so language 0 in particular does
not match. -/
theorem find_language_first_witness :
    languageMatches ["q"] sampleGetBy 0 = false :=
  (find_language_first Nat ["q"] sampleGetBy [0, 1]).2.mp rfl 0 (by decide)

/-- A successful dictionary lookup points at an occurrence of the word. -/
theorem mkWordsToIdx_some (l : List String) :
    ∀ k x j, mkWordsToIdx l k x = some j →
      ∃ i, i < l.length ∧ j = k + i ∧ l.get? i = some x := by
  induction l with
  | nil => intro k x j h; cases h
  | cons w ws ih =>
    intro k x j h
    simp only [mkWordsToIdx] at h
    cases hm : mkWordsToIdx ws (k + 1) x with
    | some j2 =>
      rw [hm] at h
      cases h
      rcases ih (k + 1) x j hm with ⟨i, hi, hj, hget⟩
      exact ⟨i + 1, by simp only [List.length_cons]; omega, by omega,
        by simpa using hget⟩
    | none =>
      rw [hm] at h
      by_cases hx : x = w
      · rw [if_pos hx] at h
        cases h
        exact ⟨0, by simp, by omega, by simp [hx]⟩
      · rw [if_neg hx] at h
        cases h

/-- The dictionary lookup fails exactly when the word does not occur in
the list. -/
theorem mkWordsToIdx_none_iff (l : List String) :
    ∀ k x, mkWordsToIdx l k x = none ↔ x ∉ l := by
  induction l with
  | nil => intro k x; simp [mkWordsToIdx]
  | cons w ws ih =>
    intro k x
    simp only [mkWordsToIdx, List.mem_cons]
    cases hm : mkWordsToIdx ws (k + 1) x with
    | some j =>
      have hx : x ∈ ws := by
        by_contra hxx
        rw [(ih (k + 1) x).mpr hxx] at hm
        cases hm
      simp [hm, hx]
    | none =>
      have hx : x ∉ ws := (ih (k + 1) x).mp hm
      by_cases hxw : x = w
      · simp [hxw]
      · simp [hxw, hx]

/-- On a duplicate-free list the dictionary maps the word at position `i`
to `k + i`. -/
theorem mkWordsToIdx_nodup (l : List String) (hnd : l.Nodup) :
    ∀ k i x, l.get? i = some x → mkWordsToIdx l k x = some (k + i) := by
  induction l with
  | nil => intro k i x h; cases h
  | cons w ws ih =>
    intro k i x h
    cases i with
    | zero =>
      simp only [List.get?_cons_zero, Option.some.injEq] at h
      subst h
      have hnotin : w ∉ ws := (List.nodup_cons.mp hnd).1
      have hnone : mkWordsToIdx ws (k + 1) w = none :=
        (mkWordsToIdx_none_iff ws (k + 1) w).mpr hnotin
      simp [mkWordsToIdx, hnone]
    | succ i =>
      simp only [List.get?_cons_succ] at h
      have hrec := ih (List.nodup_cons.mp hnd).2 (k + 1) i x h
      simp only [mkWordsToIdx, hrec]
      exact congrArg some (by omega)

/-- C9: for a words list built from pairwise-distinct words, `GetWordIdx`
and `GetWordAtIdx` are mutually inverse on the list's domain, and
`GetWordIdx` raises `ValueError` exactly for words not in the list. -/
theorem words_list_idx_inverse (l : List String) (hnd : l.Nodup) :
    (∀ i, i < l.length →
      ∃ w, (MnemonicWordsList.ofWords l).GetWordAtIdx i = some w ∧
        (MnemonicWordsList.ofWords l).GetWordIdx w = .ok i) ∧
    (∀ w, w ∈ l →
      ∃ i, (MnemonicWordsList.ofWords l).GetWordIdx w = .ok i ∧
        (MnemonicWordsList.ofWords l).GetWordAtIdx i = some w) ∧
    (∀ w, ((MnemonicWordsList.ofWords l).GetWordIdx w = .error .valueError ↔
      w ∉ l)) := by
  refine ⟨?_, ?_, ?_⟩
  · intro i hi
    obtain ⟨w, hw⟩ : ∃ w, l.get? i = some w := by
      cases hg : l.get? i with
      | none =>
        rw [List.get?_eq_none] at hg
        omega
      | some w => exact ⟨w, rfl⟩
    refine ⟨w, ?_, ?_⟩
    · simpa [MnemonicWordsList.GetWordAtIdx, MnemonicWordsList.ofWords] using hw
    · have hmk := mkWordsToIdx_nodup l hnd 0 i w hw
      simp [MnemonicWordsList.GetWordIdx, MnemonicWordsList.ofWords, hmk]
  · intro w hw
    obtain ⟨j, hj⟩ : ∃ j, mkWordsToIdx l 0 w = some j := by
      cases hm : mkWordsToIdx l 0 w with
      | none => exact absurd hw ((mkWordsToIdx_none_iff l 0 w).mp hm)
      | some j => exact ⟨j, rfl⟩
    rcases mkWordsToIdx_some l 0 w j hj with ⟨i, hi, hji, hget⟩
    refine ⟨i, ?_, ?_⟩
    · have hj2 : mkWordsToIdx l 0 w = some i := by
        rw [hj]
        exact congrArg some (by omega)
      simp [MnemonicWordsList.GetWordIdx, MnemonicWordsList.ofWords, hj2]
    · simpa [MnemonicWordsList.GetWordAtIdx, MnemonicWordsList.ofWords] using hget
  · intro w
    constructor
    · intro h
      cases hm : mkWordsToIdx l 0 w with
      | none => exact (mkWordsToIdx_none_iff l 0 w).mp hm
      | some j =>
        simp [MnemonicWordsList.GetWordIdx, MnemonicWordsList.ofWords, hm] at h
    · intro h
      have hm : mkWordsToIdx l 0 w = none := (mkWordsToIdx_none_iff l 0 w).mpr h
      simp [MnemonicWordsList.GetWordIdx, MnemonicWordsList.ofWords, hm]

/-- Witness for C9: on the duplicate-free list `["a", "b", "c"]`, looking
up a word not in the list raises `ValueError`. -/
theorem words_list_idx_inverse_witness :
    (MnemonicWordsList.ofWords ["a", "b", "c"]).GetWordIdx "z" =
      .error .valueError :=
  ((words_list_idx_inverse ["a", "b", "c"] (by decide)).2.2 "z").mpr (by decide)

/-- The maximum value computed at encoder construction is
`2^(8n+1) - 1`, not the largest `n`-byte value `2^(8n) - 1`. -/
theorem scale_max_val_eq (n : Nat) :
    (SubstrateScaleUIntEncoder.ofBytesNum n).m_max_val = 2 ^ (8 * n + 1) - 1 := by
  have hp : 2 * 2 ^ (n * 8) = 2 ^ (8 * n + 1) := by
    rw [pow_succ, Nat.mul_comm 8 n, Nat.mul_comm]
  simp [SubstrateScaleUIntEncoder.ofBytesNum, Nat.shiftLeft_eq, hp]

/-- The little-endian encoding has exactly the requested length. -/
theorem toBytesLittleEndian_length (n : Nat) :
    ∀ v, (toBytesLittleEndian v n).length = n := by
  induction n with
  | zero => intro v; rfl
  | succ m ih => intro v; simp [toBytesLittleEndian, ih]

/-- Byte `i` of the little-endian encoding is `v / 256^i % 256`. -/
theorem toBytesLittleEndian_get (n : Nat) :
    ∀ v i, i < n →
      (toBytesLittleEndian v n).get? i = some (v / 256 ^ i % 256) := by
  induction n with
  | zero => intro v i hi; exact absurd hi (Nat.not_lt_zero i)
  | succ m ih =>
    intro v i hi
    cases i with
    | zero => simp [toBytesLittleEndian]
    | succ i =>
      simp only [toBytesLittleEndian, List.get?_cons_succ]
      rw [ih (v / 256) i (by omega)]
      congr 2
      rw [Nat.div_div_eq_div_mul, pow_succ, Nat.mul_comm]

/-- C10: the encoder's range guard accepts `[0, 2^(8n+1) - 1]` — the
upper bound computed as `(2 << (n*8)) - 1` is twice-plus-one the largest
value representable in `n` bytes — raising `ValueError` exactly outside
that range; and for every value in `[0, 2^(8n) - 1]` the encoder returns
exactly the `n`-byte little-endian encoding. -/
theorem scale_uint_encoder_range (n : Nat) (v : Int) (_hn : 1 ≤ n) :
    ((SubstrateScaleUIntEncoder.ofBytesNum n).m_max_val = 2 ^ (8 * n + 1) - 1) ∧
    ((SubstrateScaleUIntEncoder.ofBytesNum n).Encode v = .error .valueError ↔
      (v < 0 ∨ ((2 : Int) ^ (8 * n + 1) - 1) < v)) ∧
    (0 ≤ v → v ≤ (2 : Int) ^ (8 * n) - 1 →
      ∃ bs, (SubstrateScaleUIntEncoder.ofBytesNum n).Encode v = .ok bs ∧
        bs.length = n ∧
        ∀ i, i < n → bs.get? i = some (v.toNat / 256 ^ i % 256)) := by
  have hmax := scale_max_val_eq n
  have hone : 1 ≤ 2 ^ (8 * n + 1) := Nat.one_le_pow _ 2 (by omega)
  have hcast : ((SubstrateScaleUIntEncoder.ofBytesNum n).m_max_val : Int) =
      (2 : Int) ^ (8 * n + 1) - 1 := by
    rw [hmax, Nat.cast_sub hone]
    push_cast
    ring
  refine ⟨hmax, ?_, ?_⟩
  · unfold SubstrateScaleUIntEncoder.Encode
    by_cases hc : v < 0 ∨
        ((SubstrateScaleUIntEncoder.ofBytesNum n).m_max_val : Int) < v
    · rw [if_pos hc, hcast] at *
      exact iff_of_true rfl hc
    · rw [if_neg hc]
      rw [hcast] at hc
      constructor
      · intro h; cases h
      · intro h; exact absurd h hc
  · intro h0 hub
    have hnotc : ¬ (v < 0 ∨
        ((SubstrateScaleUIntEncoder.ofBytesNum n).m_max_val : Int) < v) := by
      rw [hcast]
      push_neg
      refine ⟨h0, ?_⟩
      have hp : (0 : Int) ≤ 2 ^ (8 * n) := by positivity
      have hstep : (2 : Int) ^ (8 * n) ≤ 2 ^ (8 * n + 1) := by
        rw [pow_succ]
        nlinarith
      linarith
    unfold SubstrateScaleUIntEncoder.Encode
    rw [if_neg hnotc]
    refine ⟨toBytesLittleEndian v.toNat
      (SubstrateScaleUIntEncoder.ofBytesNum n).m_bytes_num, rfl, ?_, ?_⟩
    · have hb : (SubstrateScaleUIntEncoder.ofBytesNum n).m_bytes_num = n := rfl
      rw [hb, toBytesLittleEndian_length]
    · intro i hi
      have hb : (SubstrateScaleUIntEncoder.ofBytesNum n).m_bytes_num = n := rfl
      rw [hb]
      exact toBytesLittleEndian_get n v.toNat i hi

/-- Witness for C10: the two-byte encoder rejects `2^17 = 131072`, which
exceeds its maximum accepted value `2^17 - 1`. -/
theorem scale_uint_encoder_range_witness :
    (SubstrateScaleUIntEncoder.ofBytesNum 2).Encode 131072 =
      .error .valueError :=
  (scale_uint_encoder_range 2 131072 (by decide)).2.1.mpr (by decide)

end BipUtils
